import Mathlib

/-!
Verification of the vanaheimr/archaeopteryx host-reflection core and the
vanaheimr codegen helpers.

The repository ships only the declarations of `HostReflection::Queue`,
`HostReflection` framing, and `File`
(src/archaeopteryx/archaeopteryx/util/interface/HostReflection.h and the
File.h header); the bodies live in HostReflection.cpp / File.cpp which are
not part of the source tree here.  Those parts are therefore modelled from
the specification (sections 3, 4.1, 4.2, 4.4 and 6 of spec.md), as marked
on each definition.  The `align` helper and the basic-block recovery loop
of the binary reader are embedded directly from
src/vanaheimr/vanaheimr/codegen/implementation/EnforceArchaeopteryxABIPass.cpp.
-/

/-! ## Queue: lock-protected circular byte buffer

Modelled from the spec: the Queue state (spec §3: "a byte region
`[begin, end)` with `head`/`tail` cursors"; §4.1) as observed under the
single mutex; the mutex itself is elided because every `push`/`pull`
executes atomically under it.  Bytes are `Nat` cells, `used` counts the
occupied bytes.  The bodies of `Queue::push` / `Queue::pull` are in
HostReflection.cpp, absent from src/. -/
structure Queue where
  buffer : List Nat
  head : Nat
  tail : Nat
  used : Nat
deriving DecidableEq

/-- Capacity of the ring buffer, the length of the byte region. -/
def Queue.capacity (q : Queue) : Nat := q.buffer.length

/-- Write `data` into `buf` starting at cursor `pos`, wrapping modulo the
buffer length (spec §4.1: "copies bytes contiguously with wraparound"). -/
def writeBytes : List Nat → Nat → List Nat → List Nat
  | buf, _, [] => buf
  | buf, pos, b :: rest => writeBytes (buf.set (pos % buf.length) b) (pos + 1) rest

/-- Read `n` bytes out of `buf` starting at cursor `pos`, wrapping modulo
the buffer length. -/
def readBytes : List Nat → Nat → Nat → List Nat
  | _, _, 0 => []
  | buf, pos, n + 1 => buf.getD (pos % buf.length) 0 :: readBytes buf (pos + 1) n

/-- Modelled from the spec: `Queue::push(data, size)` (spec §4.1): fails
without mutating the buffer if `size` exceeds currently-free space; on
success copies all bytes with wraparound and advances `tail`. -/
def Queue.push (q : Queue) (data : List Nat) : Bool × Queue :=
  if data.length > q.capacity - q.used then (false, q)
  else (true, ⟨writeBytes q.buffer q.tail data, q.head,
    (q.tail + data.length) % q.capacity, q.used + data.length⟩)

/-- Modelled from the spec: `Queue::pull(data, size)` (spec §4.1): fails
without mutating the buffer if fewer than `size` bytes are enqueued; on
success copies out exactly `size` bytes and advances `head`.  The copied
bytes are returned instead of written through a pointer. -/
def Queue.pull (q : Queue) (n : Nat) : Option (List Nat) × Queue :=
  if n > q.used then (none, q)
  else (some (readBytes q.buffer q.head n),
    ⟨q.buffer, (q.head + n) % q.capacity, q.tail, q.used - n⟩)

/-! Helper lemmas about the byte-cell primitives. -/

theorem length_set_nat (l : List Nat) (i a : Nat) : (l.set i a).length = l.length :=
  List.length_set l i a

theorem getD_set_self (l : List Nat) (i a : Nat) (h : i < l.length) :
    (l.set i a).getD i 0 = a := by
  induction l generalizing i with
  | nil => simp at h
  | cons x xs ih =>
    cases i with
    | zero => rfl
    | succ j =>
      simp only [List.set, List.getD, List.get?]
      have := ih j (by simpa using h)
      simpa [List.getD] using this

theorem getD_set_other (l : List Nat) (i j a : Nat) (h : i ≠ j) :
    (l.set i a).getD j 0 = l.getD j 0 := by
  induction l generalizing i j with
  | nil => rfl
  | cons x xs ih =>
    cases i with
    | zero =>
      cases j with
      | zero => exact absurd rfl h
      | succ m => rfl
    | succ n =>
      cases j with
      | zero => rfl
      | succ m =>
        simp only [List.set, List.getD, List.get?]
        have := ih n m (by omega)
        simpa [List.getD] using this

theorem writeBytes_length (data : List Nat) :
    ∀ buf pos, (writeBytes buf pos data).length = buf.length := by
  induction data with
  | nil => intro buf pos; rfl
  | cons b rest ih =>
    intro buf pos
    simp only [writeBytes]
    rw [ih]
    exact List.length_set buf _ b

theorem writeBytes_getD_untouched (data : List Nat) :
    ∀ buf pos c, (∀ j, j < data.length → (pos + j) % buf.length ≠ c) →
      (writeBytes buf pos data).getD c 0 = buf.getD c 0 := by
  induction data with
  | nil => intro buf pos c _; rfl
  | cons b rest ih =>
    intro buf pos c hc
    simp only [writeBytes]
    have hlen : (buf.set (pos % buf.length) b).length = buf.length :=
      List.length_set buf _ b
    have step : (writeBytes (buf.set (pos % buf.length) b) (pos + 1) rest).getD c 0
        = (buf.set (pos % buf.length) b).getD c 0 := by
      apply ih
      intro j hj
      rw [hlen]
      have := hc (j + 1) (by simpa using Nat.succ_lt_succ hj)
      have harith : pos + 1 + j = pos + (j + 1) := by omega
      rw [harith]
      exact this
    rw [step]
    apply getD_set_other
    have h0 := hc 0 (by simp)
    simpa using h0

theorem writeBytes_getD_written (data : List Nat) :
    ∀ buf pos i, data.length ≤ buf.length → i < data.length →
      (writeBytes buf pos data).getD ((pos + i) % buf.length) 0 = data.getD i 0 := by
  induction data with
  | nil => intro buf pos i _ hi; simp at hi
  | cons b rest ih =>
    intro buf pos i hle hi
    have hbuf : 0 < buf.length := by
      have : rest.length + 1 ≤ buf.length := by simpa using hle
      omega
    have hlen : (buf.set (pos % buf.length) b).length = buf.length :=
      List.length_set buf _ b
    cases i with
    | zero =>
      simp only [writeBytes]
      have huntouched :
          (writeBytes (buf.set (pos % buf.length) b) (pos + 1) rest).getD
            ((pos + 0) % buf.length) 0
          = (buf.set (pos % buf.length) b).getD ((pos + 0) % buf.length) 0 := by
        apply writeBytes_getD_untouched
        intro j hj
        rw [hlen]
        intro heq
        have hmod : (pos + (1 + j)) % buf.length = pos % buf.length := by
          have h1 : pos + 1 + j = pos + (1 + j) := by omega
          rw [h1] at heq
          simpa using heq
        have hdvd : buf.length ∣ (1 + j) := by
          have hmodeq : Nat.ModEq buf.length pos (pos + (1 + j)) :=
            Nat.ModEq.symm hmod
          have := (Nat.modEq_iff_dvd' (Nat.le_add_right pos (1 + j))).mp hmodeq
          have hsub : pos + (1 + j) - pos = 1 + j := by omega
          rw [hsub] at this
          exact this
        have hlt : 1 + j < buf.length := by
          have : rest.length + 1 ≤ buf.length := by simpa using hle
          omega
        have := Nat.le_of_dvd (by omega) hdvd
        omega
      rw [huntouched]
      have : (pos + 0) % buf.length = pos % buf.length := by simp
      rw [this]
      have := getD_set_self buf (pos % buf.length) b (Nat.mod_lt pos hbuf)
      simpa using this
    | succ m =>
      simp only [writeBytes]
      have harith : pos + (m + 1) = (pos + 1) + m := by omega
      rw [harith, ← hlen]
      have hrle : rest.length ≤ (buf.set (pos % buf.length) b).length := by
        rw [hlen]
        have : rest.length + 1 ≤ buf.length := by simpa using hle
        omega
      have hm : m < rest.length := by simpa using hi
      have := ih (buf.set (pos % buf.length) b) (pos + 1) m hrle hm
      simpa using this

theorem readBytes_length (n : Nat) :
    ∀ buf pos, (readBytes buf pos n).length = n := by
  induction n with
  | zero => intro buf pos; rfl
  | succ m ih => intro buf pos; simp [readBytes, ih]

/-- Claim C2: for every Queue state and every push(data, size) call, if
size exceeds the free space (capacity minus used bytes) then push returns
false and the buffer, head, tail and used count are unchanged; if size
exactly equals the free space then push returns true; and on any
successful push all size bytes are written into the ring cells starting at
the old tail (never a partial write). -/
theorem C2_push_contract (q : Queue) (data : List Nat) :
    (data.length > q.capacity - q.used → q.push data = (false, q)) ∧
    (data.length = q.capacity - q.used → (q.push data).1 = true) ∧
    ((q.push data).1 = true → ∀ i, i < data.length →
      (q.push data).2.buffer.getD ((q.tail + i) % q.capacity) 0 = data.getD i 0) := by
  refine ⟨?_, ?_, ?_⟩
  · intro hgt
    simp [Queue.push, hgt]
  · intro heq
    simp [Queue.push, heq]
  · intro hsucc i hi
    by_cases hgt : data.length > q.capacity - q.used
    · simp [Queue.push, hgt] at hsucc
    · have hgt2 : ¬ data.length > q.buffer.length - q.used := by
        simpa [Queue.capacity] using hgt
      simp only [Queue.push, Queue.capacity, if_neg hgt2]
      have hle : data.length ≤ q.buffer.length := by
        clear hgt
        omega
      exact writeBytes_getD_written data q.buffer q.tail i hle hi

/-- Witness for C2 at a concrete queue: pushing two bytes into an empty
two-byte queue succeeds and writes both bytes. -/
theorem C2_push_contract_witness :
    ((Queue.mk [0, 0] 0 0 0).push [7, 9]).1 = true → ∀ i, i < ([7, 9] : List Nat).length →
      ((Queue.mk [0, 0] 0 0 0).push [7, 9]).2.buffer.getD
        (((Queue.mk [0, 0] 0 0 0).tail + i) % (Queue.mk [0, 0] 0 0 0).capacity) 0
        = ([7, 9] : List Nat).getD i 0 :=
  (C2_push_contract (Queue.mk [0, 0] 0 0 0) [7, 9]).2.2

/-- Claim C3: for every Queue state and every pull(data, size) call, if
fewer than size bytes are enqueued then pull returns false without
mutating the buffer (and without blocking: it is a total function); and
whenever pull reports success, exactly size bytes are copied out. -/
theorem C3_pull_contract (q : Queue) (n : Nat) :
    (n > q.used → q.pull n = (none, q)) ∧
    (∀ out, (q.pull n).1 = some out → out.length = n) := by
  constructor
  · intro hgt
    simp [Queue.pull, hgt]
  · intro out hout
    by_cases hgt : n > q.used
    · simp [Queue.pull, hgt] at hout
    · simp only [Queue.pull, if_neg hgt] at hout
      have : readBytes q.buffer q.head n = out := by
        simpa using hout
      rw [← this]
      exact readBytes_length n q.buffer q.head

/-- Witness for C3 at a concrete queue: pulling from an empty queue fails
and leaves it unchanged. -/
theorem C3_pull_contract_witness :
    (Queue.mk [0, 0] 0 0 0).pull 1 = (none, Queue.mk [0, 0] 0 0 0) :=
  (C3_pull_contract (Queue.mk [0, 0] 0 0 0) 1).1 (by decide)

/-! ## Queue operation sequences (claim C4) -/

/-- One queue operation of a test interleaving: a push of a byte list or a
pull of a byte count. -/
inductive QueueOp where
  | pushOp : List Nat → QueueOp
  | pullOp : Nat → QueueOp
deriving DecidableEq

/-- Run one operation; `none` when the operation reports failure, so a
`some` result means every operation so far succeeded. -/
def runOp (q : Queue) : QueueOp → Option Queue
  | QueueOp.pushOp data =>
    let r := q.push data
    if r.1 then some r.2 else none
  | QueueOp.pullOp n =>
    let r := q.pull n
    if (r.1).isSome then some r.2 else none

/-- Run a sequence of operations, failing if any one fails. -/
def runOps : Queue → List QueueOp → Option Queue
  | q, [] => some q
  | q, op :: rest =>
    match runOp q op with
    | none => none
    | some q2 => runOps q2 rest

/-- Total bytes pushed by a sequence of operations. -/
def pushedBytes : List QueueOp → Nat
  | [] => 0
  | QueueOp.pushOp data :: rest => data.length + pushedBytes rest
  | QueueOp.pullOp _ :: rest => pushedBytes rest

/-- Total bytes pulled by a sequence of operations. -/
def pulledBytes : List QueueOp → Nat
  | [] => 0
  | QueueOp.pushOp _ :: rest => pulledBytes rest
  | QueueOp.pullOp n :: rest => n + pulledBytes rest

/-- Well-formedness of a queue state: the used count never exceeds the
capacity and both cursors lie below the capacity (spec §3: "Invariant:
`0 ≤ used ≤ capacity`; cursors wrap modulo capacity"). -/
def QueueWF (q : Queue) : Prop :=
  q.used ≤ q.capacity ∧ q.head < q.capacity ∧ q.tail < q.capacity

/-- The empty queue over a zero-filled byte region of the given capacity. -/
def emptyQueue (cap : Nat) : Queue := ⟨List.replicate cap 0, 0, 0, 0⟩

/-- Modelled from the spec: `Queue::size()` — "bytes currently used"
(spec §4.1). -/
def Queue.size (q : Queue) : Nat := q.used

theorem runOp_invariant (q : Queue) (op : QueueOp) (q2 : Queue)
    (hwf : QueueWF q) (h : runOp q op = some q2) :
    QueueWF q2 ∧ q2.capacity = q.capacity ∧
    q2.used + pulledBytes [op] = q.used + pushedBytes [op] := by
  obtain ⟨hused, hhead, htail⟩ := hwf
  have hcap : 0 < q.capacity := by omega
  cases op with
  | pushOp data =>
    by_cases hgt : data.length > q.capacity - q.used
    · simp [runOp, Queue.push, hgt] at h
    · simp only [runOp, Queue.push, if_neg hgt] at h
      simp only [if_pos] at h
      have hq2 : q2 = ⟨writeBytes q.buffer q.tail data, q.head,
          (q.tail + data.length) % q.capacity, q.used + data.length⟩ := by
        simpa using h.symm
      subst hq2
      have hcap2 : (writeBytes q.buffer q.tail data).length = q.buffer.length :=
        writeBytes_length data q.buffer q.tail
      refine ⟨⟨?_, ?_, ?_⟩, ?_, ?_⟩
      · simp only [Queue.capacity] at hused hgt ⊢
        simp only [hcap2]
        omega
      · simp only [Queue.capacity] at hhead ⊢
        simpa [hcap2] using hhead
      · simp only [Queue.capacity] at hcap ⊢
        simp only [hcap2]
        exact Nat.mod_lt _ hcap
      · simp only [Queue.capacity]
        exact hcap2
      · simp [pushedBytes, pulledBytes]
  | pullOp n =>
    by_cases hgt : n > q.used
    · simp [runOp, Queue.pull, hgt] at h
    · simp only [runOp, Queue.pull, if_neg hgt] at h
      simp only [Option.isSome_some, if_pos] at h
      have hq2 : q2 = ⟨q.buffer, (q.head + n) % q.capacity, q.tail, q.used - n⟩ := by
        simpa using h.symm
      subst hq2
      refine ⟨⟨?_, ?_, ?_⟩, ?_, ?_⟩
      · simp only [Queue.capacity] at hused ⊢
        omega
      · simp only [Queue.capacity] at hcap ⊢
        exact Nat.mod_lt _ hcap
      · exact htail
      · rfl
      · simp only [pushedBytes, pulledBytes]
        omega

theorem runOps_invariant (ops : List QueueOp) :
    ∀ q q2, QueueWF q → runOps q ops = some q2 →
      QueueWF q2 ∧ q2.capacity = q.capacity ∧
      q2.used + pulledBytes ops = q.used + pushedBytes ops := by
  induction ops with
  | nil =>
    intro q q2 hwf h
    have : q = q2 := by simpa [runOps] using h
    subst this
    exact ⟨hwf, rfl, by simp [pushedBytes, pulledBytes]⟩
  | cons op rest ih =>
    intro q q2 hwf h
    simp only [runOps] at h
    cases hop : runOp q op with
    | none => rw [hop] at h; exact absurd h (by simp)
    | some qmid =>
      rw [hop] at h
      obtain ⟨hwfmid, hcapmid, haccmid⟩ := runOp_invariant q op qmid hwf hop
      obtain ⟨hwf2, hcap2, hacc2⟩ := ih qmid q2 hwfmid h
      refine ⟨hwf2, hcap2.trans hcapmid, ?_⟩
      cases op with
      | pushOp data =>
        simp only [pushedBytes, pulledBytes] at haccmid ⊢
        omega
      | pullOp n =>
        simp only [pushedBytes, pulledBytes] at haccmid ⊢
        omega

/-- Claim C4: starting from an empty queue, after any sequence of
successful push and pull operations totalling S pushed bytes and S2
pulled bytes, size() equals S − S2 (and S2 never exceeds S); and after
every operation of the sequence the invariant 0 ≤ used ≤ capacity holds
with both cursors wrapped below the capacity. -/
theorem C4_queue_accounting (cap : Nat) (ops : List QueueOp) (hcap : 0 < cap) :
    (∀ q, runOps (emptyQueue cap) ops = some q →
      q.size = pushedBytes ops - pulledBytes ops ∧
      pulledBytes ops ≤ pushedBytes ops ∧
      q.used ≤ cap ∧ q.head < cap ∧ q.tail < cap) ∧
    (∀ n q2, runOps (emptyQueue cap) (ops.take n) = some q2 →
      q2.used ≤ cap ∧ q2.head < cap ∧ q2.tail < cap) := by
  have hwf0 : QueueWF (emptyQueue cap) := by
    refine ⟨?_, ?_, ?_⟩ <;> simp [emptyQueue, Queue.capacity, hcap]
  have hcap0 : (emptyQueue cap).capacity = cap := by
    simp [emptyQueue, Queue.capacity]
  constructor
  · intro q h
    obtain ⟨⟨hu, hh, ht⟩, hc, hacc⟩ := runOps_invariant ops (emptyQueue cap) q hwf0 h
    rw [hc, hcap0] at hu hh ht
    have hused0 : (emptyQueue cap).used = 0 := rfl
    rw [hused0] at hacc
    refine ⟨?_, by omega, hu, hh, ht⟩
    simp only [Queue.size]
    omega
  · intro n q2 h
    obtain ⟨⟨hu, hh, ht⟩, hc, _⟩ :=
      runOps_invariant (ops.take n) (emptyQueue cap) q2 hwf0 h
    rw [hc, hcap0] at hu hh ht
    exact ⟨hu, hh, ht⟩

/-- Witness for C4: pushing one byte and pulling it back on a two-byte
queue leaves zero used bytes, with the invariant intact. -/
theorem C4_queue_accounting_witness :
    (Queue.mk [7, 0] 1 1 0).size
      = pushedBytes [QueueOp.pushOp [7], QueueOp.pullOp 1]
        - pulledBytes [QueueOp.pushOp [7], QueueOp.pullOp 1] ∧
    pulledBytes [QueueOp.pushOp [7], QueueOp.pullOp 1]
      ≤ pushedBytes [QueueOp.pushOp [7], QueueOp.pullOp 1] ∧
    (Queue.mk [7, 0] 1 1 0).used ≤ 2 ∧
    (Queue.mk [7, 0] 1 1 0).head < 2 ∧ (Queue.mk [7, 0] 1 1 0).tail < 2 :=
  (C4_queue_accounting 2 [QueueOp.pushOp [7], QueueOp.pullOp 1] (by decide)).1
    (Queue.mk [7, 0] 1 1 0) (by rfl)

/-! ## HostReflection reply correlation (claim C1)

Modelled from the spec: `sendSynchronous` (spec §4.2) spins on `receive`
"filtered to frames whose address equals `replyKey`"; the global invariant
(spec §3) matches replies "by `(threadId, address)`, not by arrival
order".  A reply frame is its key and payload; a waiter scans the frames
the host delivered and takes the first one carrying its own key.  The
body of `sendSynchronous` is in HostReflection.cpp, absent from src/. -/
structure ReplyFrame where
  threadId : Nat
  address : Nat
  payload : List Nat
deriving DecidableEq

/-- A frame matches a waiter exactly when both components of the reply key
agree. -/
def replyMatches (tid addr : Nat) (f : ReplyFrame) : Bool :=
  f.threadId == tid && f.address == addr

/-- Modelled from the spec: the receive side of `sendSynchronous`: take
the payload of the first delivered frame whose key matches, regardless of
where it sits in the delivery order. -/
def matchReply (tid addr : Nat) (fs : List ReplyFrame) : Option (List Nat) :=
  (fs.find? (replyMatches tid addr)).map ReplyFrame.payload

/-- Number of delivered frames matching a reply key. -/
def countMatching (tid addr : Nat) (fs : List ReplyFrame) : Nat :=
  (fs.filter (replyMatches tid addr)).length

/-- Claim C1: two concurrent synchronous calls whose reply keys
(threadId, address) differ each receive exactly their own reply payload,
for both orders in which the host dispatch thread can deliver the two
reply frames; each key matches exactly one frame. -/
theorem C1_no_cross_delivery (t1 a1 t2 a2 : Nat) (p1 p2 : List Nat)
    (fs : List ReplyFrame)
    (hne : ¬ (t1 = t2 ∧ a1 = a2))
    (hfs : fs = [ReplyFrame.mk t1 a1 p1, ReplyFrame.mk t2 a2 p2] ∨
           fs = [ReplyFrame.mk t2 a2 p2, ReplyFrame.mk t1 a1 p1]) :
    matchReply t1 a1 fs = some p1 ∧ matchReply t2 a2 fs = some p2 ∧
    countMatching t1 a1 fs = 1 ∧ countMatching t2 a2 fs = 1 := by
  have hown1 : replyMatches t1 a1 (ReplyFrame.mk t1 a1 p1) = true := by
    simp [replyMatches]
  have hown2 : replyMatches t2 a2 (ReplyFrame.mk t2 a2 p2) = true := by
    simp [replyMatches]
  have h12 : replyMatches t1 a1 (ReplyFrame.mk t2 a2 p2) = false := by
    simp only [replyMatches, Bool.and_eq_false_iff, beq_eq_false_iff_ne, ne_eq]
    by_cases ht : t2 = t1
    · subst ht
      right
      intro ha
      exact hne ⟨rfl, ha.symm⟩
    · left
      exact ht
  have h21 : replyMatches t2 a2 (ReplyFrame.mk t1 a1 p1) = false := by
    simp only [replyMatches, Bool.and_eq_false_iff, beq_eq_false_iff_ne, ne_eq]
    by_cases ht : t1 = t2
    · subst ht
      right
      intro ha
      exact hne ⟨rfl, ha⟩
    · left
      exact ht
  rcases hfs with rfl | rfl
  · refine ⟨?_, ?_, ?_, ?_⟩ <;>
      simp [matchReply, countMatching, List.find?, List.filter,
        hown1, hown2, h12, h21]
  · refine ⟨?_, ?_, ?_, ?_⟩ <;>
      simp [matchReply, countMatching, List.find?, List.filter,
        hown1, hown2, h12, h21]

/-- Witness for C1: keys (0,0) and (0,1) with payloads [1] and [2], host
delivering the second caller's reply first. -/
theorem C1_no_cross_delivery_witness :
    matchReply 0 0 [ReplyFrame.mk 0 1 [2], ReplyFrame.mk 0 0 [1]] = some [1] ∧
    matchReply 0 1 [ReplyFrame.mk 0 1 [2], ReplyFrame.mk 0 0 [1]] = some [2] ∧
    countMatching 0 0 [ReplyFrame.mk 0 1 [2], ReplyFrame.mk 0 0 [1]] = 1 ∧
    countMatching 0 1 [ReplyFrame.mk 0 1 [2], ReplyFrame.mk 0 0 [1]] = 1 :=
  C1_no_cross_delivery 0 0 0 1 [1] [2] _ (by decide) (Or.inr rfl)

/-! ## File message class declarations (claim C5)

Embedded from the class declarations in File.h (src/unnamed/part_000):
for each of the six message classes, whether its declaration names
`HostReflection::Message` as a base class, and whether it declares the
three capability operations. -/
structure MessageClassDecl where
  className : String
  inheritsMessage : Bool
  declaresPayload : Bool
  declaresPayloadSize : Bool
  declaresHandler : Bool
deriving DecidableEq

/-- File.h line 118: `class OpenMessage : public HostReflection::Message`. -/
def openMessageDecl : MessageClassDecl :=
  ⟨"File::OpenMessage", true, true, true, true⟩

/-- File.h line 133: `class OpenReply : public HostReflection::Message`. -/
def openReplyDecl : MessageClassDecl :=
  ⟨"File::OpenReply", true, true, true, true⟩

/-- File.h line 160: `class DeleteMessage` — no base class named. -/
def deleteMessageDecl : MessageClassDecl :=
  ⟨"File::DeleteMessage", false, true, true, true⟩

/-- File.h line 175: `class TeardownMessage` — no base class named. -/
def teardownMessageDecl : MessageClassDecl :=
  ⟨"File::TeardownMessage", false, true, true, true⟩

/-- File.h line 190: `class WriteMessage` — no base class named. -/
def writeMessageDecl : MessageClassDecl :=
  ⟨"File::WriteMessage", false, true, true, true⟩

/-- File.h line 213: `class ReadMessage` — no base class named. -/
def readMessageDecl : MessageClassDecl :=
  ⟨"File::ReadMessage", false, true, true, true⟩

/-- The six message classes declared by File. -/
def fileMessageDecls : List MessageClassDecl :=
  [openMessageDecl, openReplyDecl, deleteMessageDecl,
   teardownMessageDecl, writeMessageDecl, readMessageDecl]

/-- A class conforms to the `HostReflection::Message` interface when it
derives from it and declares all three capability operations. -/
def conformsToMessage (c : MessageClassDecl) : Bool :=
  c.inheritsMessage && c.declaresPayload && c.declaresPayloadSize && c.declaresHandler

/-- Claim C5 (code evaluated at the failing input): `File::DeleteMessage`
declares the three capability operations but does not derive from
`HostReflection::Message`, so it does not conform to the Message
interface; the same holds for Teardown, Write and Read, leaving only two
of the six declared variants conforming, although every one of the six
declares payload(), payloadSize() and handler(). -/
theorem C5_delete_message_not_a_message :
    conformsToMessage deleteMessageDecl = false ∧
    deleteMessageDecl.declaresPayload = true ∧
    deleteMessageDecl.declaresPayloadSize = true ∧
    deleteMessageDecl.declaresHandler = true ∧
    (fileMessageDecls.filter conformsToMessage).length = 2 ∧
    (∀ c ∈ fileMessageDecls,
      c.declaresPayload = true ∧ c.declaresPayloadSize = true ∧
      c.declaresHandler = true) := by
  refine ⟨rfl, rfl, rfl, rfl, rfl, ?_⟩
  intro c hc
  fin_cases hc <;> exact ⟨rfl, rfl, rfl⟩

/-! ## Handler-id enumeration (claim C6)

Embedded from HostReflection.h lines 28-35: the `MessageHandler`
enumeration lists OpenFile, TeardownFile, FileWrite, FileRead without
initializers and Invalid with the explicit initializer -1.  C++ assigns 0
to the first enumerator with no initializer and previous value plus one to
each later one. -/
def cppEnumValuesFrom : Int → List (Option Int) → List Int
  | _, [] => []
  | next, none :: rest => next :: cppEnumValuesFrom (next + 1) rest
  | _, some v :: rest => v :: cppEnumValuesFrom (v + 1) rest

/-- The values a C++ enumerator list takes, given each enumerator's
optional explicit initializer in source order. -/
def cppEnumValues (inits : List (Option Int)) : List Int :=
  cppEnumValuesFrom 0 inits

/-- The initializer list of `enum MessageHandler`, in source order:
OpenFileMessageHandler, TeardownFileMessageHandler,
FileWriteMessageHandler, FileReadMessageHandler,
InvalidMessageHandler = -1. -/
def messageHandlerEnumInits : List (Option Int) :=
  [none, none, none, none, some (-1)]

/-- The values the C++ rules assign to the MessageHandler enumerators. -/
def messageHandlerValues : List Int :=
  cppEnumValues messageHandlerEnumInits

/-- Claim C6: the handler-id enumeration assigns OpenFile = 0,
TeardownFile = 1, FileWrite = 2, FileRead = 3 and Invalid = -1 (list
positions follow the source order of the enumerators). -/
theorem C6_handler_id_values :
    messageHandlerValues = [0, 1, 2, 3, -1] := by
  rfl

/-! ## Wire frame layout (claim C7)

Embedded from HostReflection.h lines 77-96 (`MessageType`, `Header`,
`SynchronousHeader`) together with the framing described in spec §6,
since the producing code (`sendSynchronous`) is in HostReflection.cpp,
absent from src/.  Modelled from the spec: a frame is the 12-byte header
(three 4-byte fields), then a pointer-width address present exactly when
the type is Synchronous, then the payload bytes; `maxMessageSize()`
bounds header plus payload and the producer enforces it. -/
inductive MessageType where
  | Synchronous
  | Asynchronous
  | Invalid
deriving DecidableEq

/-- Numeric value of the `MessageType` enumerator (C++ enum, first is 0). -/
def messageTypeCode : MessageType → Nat
  | MessageType.Synchronous => 0
  | MessageType.Asynchronous => 1
  | MessageType.Invalid => 2

/-- The message header: type, caller thread id and handler id
(HostReflection.h lines 84-90), each a 4-byte field on the wire. -/
structure Header where
  type : MessageType
  threadId : Nat
  handler : Nat
deriving DecidableEq

/-- The four little-endian bytes of a 32-bit field. -/
def bytes4 (n : Nat) : List Nat :=
  [n % 256, n / 256 % 256, n / 65536 % 256, n / 16777216 % 256]

/-- The eight little-endian bytes of a pointer-width (64-bit) field. -/
def bytes8 (n : Nat) : List Nat :=
  bytes4 (n % 4294967296) ++ bytes4 (n / 4294967296)

/-- Wire encoding of the header: three 4-byte fields in source order. -/
def encodeHeader (h : Header) : List Nat :=
  bytes4 (messageTypeCode h.type) ++ bytes4 h.threadId ++ bytes4 h.handler

/-- Modelled from the spec: the wire frame — header, then the address
field exactly when the type is Synchronous, then the payload bytes. -/
def encodeFrame (h : Header) (address : Nat) (payload : List Nat) : List Nat :=
  encodeHeader h ++
    (if h.type = MessageType.Synchronous then bytes8 address else []) ++ payload

/-- Modelled from the spec: the producer refuses any frame whose bytes
exceed `maxMessageSize()` (spec §3: "exceeding it is a caller programming
error that must fail immediately"). -/
def encodeFrameChecked (maxMessageSize : Nat) (h : Header) (address : Nat)
    (payload : List Nat) : Option (List Nat) :=
  if (encodeFrame h address payload).length ≤ maxMessageSize then
    some (encodeFrame h address payload)
  else none

theorem encodeHeader_length (h : Header) : (encodeHeader h).length = 12 := by
  simp [encodeHeader, bytes4]

/-- Claim C7: every emitted wire frame consists, in byte order, of the
12-byte header (4-byte type, threadId and handler fields), then a
pointer-width address field present if and only if the type is
Synchronous, then exactly the payload bytes; and no emitted frame exceeds
maxMessageSize(). -/
theorem C7_wire_frame_layout (maxMessageSize : Nat) (h : Header)
    (address : Nat) (payload : List Nat) (bs : List Nat)
    (henc : encodeFrameChecked maxMessageSize h address payload = some bs) :
    bs.length = 12 + (if h.type = MessageType.Synchronous then 8 else 0)
      + payload.length ∧
    bs.length ≤ maxMessageSize ∧
    bs.take 12 = encodeHeader h ∧
    (h.type = MessageType.Synchronous →
      bs = encodeHeader h ++ bytes8 address ++ payload) ∧
    (h.type ≠ MessageType.Synchronous → bs = encodeHeader h ++ payload) := by
  have hsize : (encodeFrame h address payload).length ≤ maxMessageSize := by
    by_cases hle : (encodeFrame h address payload).length ≤ maxMessageSize
    · exact hle
    · simp [encodeFrameChecked, hle] at henc
  have hbs : bs = encodeFrame h address payload := by
    simp [encodeFrameChecked, hsize] at henc
    exact henc.symm
  subst hbs
  refine ⟨?_, hsize, ?_, ?_, ?_⟩
  · by_cases hsync : h.type = MessageType.Synchronous
    · simp [encodeFrame, encodeHeader, bytes4, bytes8, hsync]
      omega
    · simp [encodeFrame, encodeHeader, bytes4, hsync]
      omega
  · have h12 : (encodeHeader h).length = 12 := encodeHeader_length h
    simp [encodeFrame, List.append_assoc]
    rw [List.take_append_of_le_length (by rw [h12])]
    simp [h12, List.take_of_length_le]
  · intro hsync
    simp [encodeFrame, hsync]
  · intro hsync
    simp [encodeFrame, if_neg hsync]

/-- Witness for C7: a Synchronous frame with a two-byte payload under a
32-byte bound. -/
theorem C7_wire_frame_layout_witness :
    (encodeFrame (Header.mk MessageType.Synchronous 1 2) 5 [9, 9]).length
        = 12 + (if (Header.mk MessageType.Synchronous 1 2).type
            = MessageType.Synchronous then 8 else 0) + ([9, 9] : List Nat).length ∧
    (encodeFrame (Header.mk MessageType.Synchronous 1 2) 5 [9, 9]).length ≤ 32 ∧
    (encodeFrame (Header.mk MessageType.Synchronous 1 2) 5 [9, 9]).take 12
        = encodeHeader (Header.mk MessageType.Synchronous 1 2) ∧
    ((Header.mk MessageType.Synchronous 1 2).type = MessageType.Synchronous →
      encodeFrame (Header.mk MessageType.Synchronous 1 2) 5 [9, 9]
        = encodeHeader (Header.mk MessageType.Synchronous 1 2) ++ bytes8 5 ++ [9, 9]) ∧
    ((Header.mk MessageType.Synchronous 1 2).type ≠ MessageType.Synchronous →
      encodeFrame (Header.mk MessageType.Synchronous 1 2) 5 [9, 9]
        = encodeHeader (Header.mk MessageType.Synchronous 1 2) ++ [9, 9]) := by
  have h := C7_wire_frame_layout 32 (Header.mk MessageType.Synchronous 1 2) 5
    [9, 9] (encodeFrame (Header.mk MessageType.Synchronous 1 2) 5 [9, 9]) (by rfl)
  exact h

/-! ## File cursor operations (claim C8)

Modelled from the spec: the File state {handle, size, get-cursor,
put-cursor} (spec §3; fields `_file`, `_size`, `_get`, `_put` in File.h
lines 239-244) and the four cursor operations, which per spec §4.4
"mutate only local cursor fields; no round trip".  Each operation also
reports the list of frames it pushes onto the Queue, so that "no round
trip" is the statement that this list is empty.  The bodies are in
File.cpp, absent from src/. -/
structure FileState where
  file : Nat
  size : Nat
  put : Nat
  get : Nat
deriving DecidableEq

/-- Modelled from the spec: `File::tellg` — returns the get cursor,
sends nothing. -/
def fileTellg (f : FileState) : Nat × FileState × List (List Nat) :=
  (f.get, f, [])

/-- Modelled from the spec: `File::tellp` — returns the put cursor,
sends nothing. -/
def fileTellp (f : FileState) : Nat × FileState × List (List Nat) :=
  (f.put, f, [])

/-- Modelled from the spec: `File::seekg(p)` — sets the get cursor,
sends nothing. -/
def fileSeekg (f : FileState) (p : Nat) : FileState × List (List Nat) :=
  ({ f with get := p }, [])

/-- Modelled from the spec: `File::seekp(p)` — sets the put cursor,
sends nothing. -/
def fileSeekp (f : FileState) (p : Nat) : FileState × List (List Nat) :=
  ({ f with put := p }, [])

/-- Claim C8: for every File object and position p, tellg/tellp/seekg/seekp
read or write only the local get/put cursor fields: they push no frame
onto the Queue, and the handle, size and the other cursor are unchanged. -/
theorem C8_cursor_ops_local (f : FileState) (p : Nat) :
    ((fileTellg f).1 = f.get ∧ (fileTellg f).2.1 = f ∧ (fileTellg f).2.2 = []) ∧
    ((fileTellp f).1 = f.put ∧ (fileTellp f).2.1 = f ∧ (fileTellp f).2.2 = []) ∧
    ((fileSeekg f p).1.get = p ∧ (fileSeekg f p).1.file = f.file ∧
      (fileSeekg f p).1.size = f.size ∧ (fileSeekg f p).1.put = f.put ∧
      (fileSeekg f p).2 = []) ∧
    ((fileSeekp f p).1.put = p ∧ (fileSeekp f p).1.file = f.file ∧
      (fileSeekp f p).1.size = f.size ∧ (fileSeekp f p).1.get = f.get ∧
      (fileSeekp f p).2 = []) := by
  refine ⟨⟨rfl, rfl, rfl⟩, ⟨rfl, rfl, rfl⟩, ⟨rfl, rfl, rfl, rfl, rfl⟩,
    ⟨rfl, rfl, rfl, rfl, rfl⟩⟩

/-! ## The align helper of EnforceArchaeopteryxABIPass (claim C9)

Embedded from EnforceArchaeopteryxABIPass.cpp lines 79-85.  The C++
function computes on `unsigned int`, so the final sum wraps modulo 2^32;
`remainder` and `offset` are below `alignment` and never wrap on their
own. -/
def uintMod : Nat := 4294967296

/-- Embedded from the source:
`remainder = address % alignment;`
`offset = remainder == 0 ? 0 : alignment - remainder;`
`return address + offset;` on 32-bit unsigned arithmetic. -/
def align (address alignment : Nat) : Nat :=
  let remainder := address % alignment
  let offset := if remainder = 0 then 0 else alignment - remainder
  (address + offset) % uintMod

/-- Claim C9 counterexample: at address 2^32 − 1 with alignment 2 the
unsigned addition wraps, so align returns 0, which is smaller than the
address — refuting "never a smaller value" as stated for every unsigned
address. -/
theorem C9_align_wraps :
    align 4294967295 2 = 0 ∧ ¬ (4294967295 ≤ align 4294967295 2) := by
  have h : align 4294967295 2 = 0 := by rfl
  refine ⟨h, ?_⟩
  rw [h]
  decide

/-- Claim C9 as amended: for 32-bit address and positive alignment,
whenever the rounded-up value does not overflow 2^32 (in particular
whenever the address is already aligned), align returns the smallest
multiple of the alignment that is greater than or equal to the address. -/
theorem C9_align_least (address alignment : Nat) (ha : 0 < alignment)
    (haddr : address < uintMod)
    (hfit : address % alignment = 0 ∨
      address + (alignment - address % alignment) < uintMod) :
    alignment ∣ align address alignment ∧
    address ≤ align address alignment ∧
    ∀ m, alignment ∣ m → address ≤ m → align address alignment ≤ m := by
  by_cases hr : address % alignment = 0
  · have hval : align address alignment = address := by
      simp [align, hr, Nat.mod_eq_of_lt haddr]
    rw [hval]
    exact ⟨Nat.dvd_of_mod_eq_zero hr, Nat.le_refl _, fun m _ hm => hm⟩
  · have hfit2 : address + (alignment - address % alignment) < uintMod := by
      rcases hfit with h | h
      · exact absurd h hr
      · exact h
    have hval : align address alignment
        = address + (alignment - address % alignment) := by
      simp [align, hr, Nat.mod_eq_of_lt hfit2]
    rw [hval]
    have hrlt : address % alignment < alignment := Nat.mod_lt _ ha
    refine ⟨?_, ?_, ?_⟩
    · refine ⟨address / alignment + 1, ?_⟩
      have hde : alignment * (address / alignment) + address % alignment
          = address := Nat.div_add_mod address alignment
      rw [Nat.mul_add, Nat.mul_one]
      set r := address % alignment with hrr
      set t := alignment * (address / alignment) with ht
      omega
    · omega
    · intro m hdvd hm
      obtain ⟨k, hk⟩ := hdvd
      subst hk
      have hde : alignment * (address / alignment) + address % alignment
          = address := Nat.div_add_mod address alignment
      set r := address % alignment with hrr
      set q := address / alignment with hq
      have hqk : q + 1 ≤ k := by
        by_contra hcon
        push_neg at hcon
        have hkq : k ≤ q := by omega
        have hmul : alignment * k ≤ alignment * q :=
          Nat.mul_le_mul_left alignment hkq
        set A := alignment * k with hA
        set B := alignment * q with hB
        omega
      have hmul2 : alignment * (q + 1) ≤ alignment * k :=
        Nat.mul_le_mul_left alignment hqk
      have hexp : alignment * (q + 1) = alignment * q + alignment := by ring
      rw [hexp] at hmul2
      set A := alignment * k with hA
      set B := alignment * q with hB
      omega

/-- Witness for the amended C9 at address 5, alignment 4: the aligned
value is a multiple of 4, at least 5, and below every other such
multiple. -/
theorem C9_align_least_witness :
    4 ∣ align 5 4 ∧ 5 ≤ align 5 4 ∧
    ∀ m, 4 ∣ m → 5 ≤ m → align 5 4 ≤ m :=
  C9_align_least 5 4 (by decide) (by decide) (Or.inr (by decide))

/-! ## Basic-block recovery in BinaryReader (claim C10)

Embedded from `BinaryReader::_getBasicBlocksInFunction`
(EnforceArchaeopteryxABIPass.cpp source file, lines 499-577).  An
instruction container is reduced to the fields the loop inspects: whether
its opcode is `Bra`, whether the branch target operand is in Immediate
mode, and the immediate target value.  The two source loops run over the
instruction indices `[begin, end)` with
`begin = (symbol.offset - codeOffset) / sizeof(InstructionContainer)` and
`end = begin + symbol.size / sizeof(InstructionContainer)`; here that
index range is the list `List.range' bIdx count`. -/
structure InstructionContainer where
  isBra : Bool
  braTargetIsImmediate : Bool
  braTargetImmediate : Nat
deriving DecidableEq

/-- Value an out-of-range read yields; the source asserts
`i < _instructions.size()` elsewhere, and the fields are irrelevant to
the partition shape. -/
def defaultIC : InstructionContainer := ⟨false, false, 0⟩

/-- A basic block descriptor: name and the begin/end instruction indices
(fields `name`, `begin`, `end` in the source; `end` is reserved in Lean). -/
structure BasicBlockDescriptor where
  name : String
  bbegin : Nat
  bend : Nat
deriving DecidableEq

/-- First source loop: collect the immediate branch targets of every
`Bra` instruction in the range; a non-immediate branch target hits
`assertM(false, "not implemented")`, modelled as `none`. -/
def collectTargets (insts : List InstructionContainer) :
    List Nat → Option (List Nat)
  | [] => some []
  | i :: rest =>
    let ic := insts.getD i defaultIC
    if ic.isBra then
      if ic.braTargetIsImmediate then
        match collectTargets insts rest with
        | none => none
        | some ts => some (ic.braTargetImmediate :: ts)
      else none
    else collectTargets insts rest

/-- Second source loop: walk the instruction indices, closing the current
block at every branch target (exclusive) and after every `Bra`
(inclusive), and opening the next block where the closed one ended. -/
def bbLoop (targets : List Nat) (icSize : Nat)
    (insts : List InstructionContainer) :
    List Nat → BasicBlockDescriptor → List BasicBlockDescriptor →
      List BasicBlockDescriptor × BasicBlockDescriptor
  | [], block, blocks => (blocks, block)
  | i :: rest, block, blocks =>
    let ic := insts.getD i defaultIC
    if targets.contains (i * icSize) then
      let blocks2 := blocks ++ [{ block with bend := i }]
      bbLoop targets icSize insts rest
        ⟨"BB_" ++ toString blocks2.length, i, 0⟩ blocks2
    else if ic.isBra then
      let blocks2 := blocks ++ [{ block with bend := i + 1 }]
      bbLoop targets icSize insts rest
        ⟨"BB_" ++ toString blocks2.length, i + 1, 0⟩ blocks2
    else bbLoop targets icSize insts rest block blocks

/-- Embedded from the source: `_getBasicBlocksInFunction`, with the
symbol's offset and size, the header's code offset and
`sizeof(InstructionContainer)` as inputs.  After the walk, a still-open
block reaching `end` is closed at `end`. -/
def getBasicBlocksInFunction (insts : List InstructionContainer)
    (symbolOffset symbolSize codeOffset icSize : Nat) :
    Option (List BasicBlockDescriptor) :=
  let bIdx := (symbolOffset - codeOffset) / icSize
  let count := symbolSize / icSize
  let eIdx := bIdx + count
  match collectTargets insts (List.range' bIdx count) with
  | none => none
  | some targets =>
    let r := bbLoop targets icSize insts (List.range' bIdx count)
      ⟨"BB_0", bIdx, 0⟩ []
    if r.2.bbegin ≠ eIdx then some (r.1 ++ [{ r.2 with bend := eIdx }])
    else some r.1

/-- The contiguous-partition predicate: the pairs cover `[a, b)` in
order — the first pair starts at `a`, every pair is non-decreasing, each
pair starts where the previous one ended, and the last one ends at `b`
(an empty list is allowed exactly when `a = b`). -/
def chainFrom : Nat → Nat → List (Nat × Nat) → Prop
  | a, b, [] => a = b
  | a, b, (x, y) :: rest => x = a ∧ x ≤ y ∧ chainFrom y b rest

instance chainFromDecidable : (a b : Nat) → (l : List (Nat × Nat)) →
    Decidable (chainFrom a b l)
  | a, b, [] => inferInstanceAs (Decidable (a = b))
  | a, b, (x, y) :: rest =>
    have : Decidable (chainFrom y b rest) := chainFromDecidable y b rest
    inferInstanceAs (Decidable (x = a ∧ x ≤ y ∧ chainFrom y b rest))

theorem chainFrom_append_pair (l : List (Nat × Nat)) :
    ∀ a m c, chainFrom a m l → m ≤ c → chainFrom a c (l ++ [(m, c)]) := by
  induction l with
  | nil =>
    intro a m c h hle
    simp only [chainFrom] at h
    subst h
    exact ⟨rfl, hle, rfl⟩
  | cons p rest ih =>
    intro a m c h hle
    obtain ⟨x, y⟩ := p
    obtain ⟨hx, hxy, hrest⟩ := h
    exact ⟨hx, hxy, ih y m c hrest hle⟩

/-- The pair of cursor indices a descriptor covers. -/
def descrPair (blk : BasicBlockDescriptor) : Nat × Nat := (blk.bbegin, blk.bend)

theorem bbLoop_chain (targets : List Nat) (icSize : Nat)
    (insts : List InstructionContainer) (n : Nat) :
    ∀ i block blocks a, block.bbegin ≤ i →
      chainFrom a block.bbegin (blocks.map descrPair) →
      (bbLoop targets icSize insts (List.range' i n) block blocks).2.bbegin ≤ i + n ∧
      chainFrom a
        (bbLoop targets icSize insts (List.range' i n) block blocks).2.bbegin
        ((bbLoop targets icSize insts (List.range' i n) block blocks).1.map
          descrPair) := by
  induction n with
  | zero =>
    intro i block blocks a hle hchain
    exact ⟨by simpa using hle, by simpa using hchain⟩
  | succ m ih =>
    intro i block blocks a hle hchain
    have hrange : List.range' i (m + 1) = i :: List.range' (i + 1) m := rfl
    rw [hrange]
    simp only [bbLoop]
    by_cases htgt : targets.contains (i * icSize)
    · rw [if_pos htgt]
      have hchain2 : chainFrom a i
          ((blocks ++ [{ block with bend := i }]).map descrPair) := by
        have hmap : (blocks ++ [{ block with bend := i }]).map descrPair
            = blocks.map descrPair ++ [(block.bbegin, i)] := by
          simp [descrPair]
        rw [hmap]
        exact chainFrom_append_pair (blocks.map descrPair) a block.bbegin i
          hchain hle
      have hstep := ih (i + 1)
        ⟨"BB_" ++ toString (blocks ++ [{ block with bend := i }]).length, i, 0⟩
        (blocks ++ [{ block with bend := i }]) a (Nat.le_succ i) hchain2
      refine ⟨?_, hstep.2⟩
      have h1 := hstep.1
      omega
    · rw [if_neg htgt]
      by_cases hbra : (insts.getD i defaultIC).isBra
      · rw [if_pos hbra]
        have hchain2 : chainFrom a (i + 1)
            ((blocks ++ [{ block with bend := i + 1 }]).map descrPair) := by
          have hmap : (blocks ++ [{ block with bend := i + 1 }]).map descrPair
              = blocks.map descrPair ++ [(block.bbegin, i + 1)] := by
            simp [descrPair]
          rw [hmap]
          exact chainFrom_append_pair (blocks.map descrPair) a block.bbegin
            (i + 1) hchain (by omega)
        have hstep := ih (i + 1)
          ⟨"BB_" ++ toString
            (blocks ++ [{ block with bend := i + 1 }]).length, i + 1, 0⟩
          (blocks ++ [{ block with bend := i + 1 }]) a (Nat.le_refl (i + 1))
          hchain2
        refine ⟨?_, hstep.2⟩
        have h1 := hstep.1
        omega
      · rw [if_neg hbra]
        have hstep := ih (i + 1) block blocks a (by omega) hchain
        refine ⟨?_, hstep.2⟩
        have h1 := hstep.1
        omega

/-- Claim C10: for every function symbol, the descriptor vector returned
by `_getBasicBlocksInFunction` is a contiguous partition of the
instruction index range [begin, end): the first descriptor begins at
begin, each subsequent descriptor begins exactly where the previous one
ends, every descriptor has begin ≤ end, and the last descriptor ends at
end (with the empty vector occurring only when begin = end). -/
theorem C10_basic_blocks_partition (insts : List InstructionContainer)
    (symbolOffset symbolSize codeOffset icSize : Nat)
    (bs : List BasicBlockDescriptor)
    (h : getBasicBlocksInFunction insts symbolOffset symbolSize codeOffset icSize
      = some bs) :
    chainFrom ((symbolOffset - codeOffset) / icSize)
      ((symbolOffset - codeOffset) / icSize + symbolSize / icSize)
      (bs.map descrPair) := by
  simp only [getBasicBlocksInFunction] at h
  split at h
  · exact absurd h (by simp)
  · rename_i targets hct
    have hinv := bbLoop_chain targets icSize insts (symbolSize / icSize)
      ((symbolOffset - codeOffset) / icSize)
      ⟨"BB_0", (symbolOffset - codeOffset) / icSize, 0⟩ []
      ((symbolOffset - codeOffset) / icSize) (Nat.le_refl _) rfl
    split at h
    · rename_i hne
      have hbs := Option.some.inj h
      rw [← hbs, List.map_append]
      have hmap : ([{ (bbLoop targets icSize insts
          (List.range' ((symbolOffset - codeOffset) / icSize)
            (symbolSize / icSize))
          ⟨"BB_0", (symbolOffset - codeOffset) / icSize, 0⟩ []).2 with
          bend := (symbolOffset - codeOffset) / icSize
            + symbolSize / icSize }] : List BasicBlockDescriptor).map descrPair
          = [((bbLoop targets icSize insts
              (List.range' ((symbolOffset - codeOffset) / icSize)
                (symbolSize / icSize))
              ⟨"BB_0", (symbolOffset - codeOffset) / icSize, 0⟩ []).2.bbegin,
            (symbolOffset - codeOffset) / icSize + symbolSize / icSize)] := by
        simp [descrPair]
      rw [hmap]
      exact chainFrom_append_pair _ _ _ _ hinv.2 hinv.1
    · rename_i hne
      have hbs := Option.some.inj h
      push_neg at hne
      rw [← hbs, ← hne]
      exact hinv.2

/-- Witness for C10: three instructions, the middle one a Bra targeting
offset 0, produce the partition [0,0), [0,2), [2,3) of [0,3). -/
theorem C10_basic_blocks_partition_witness :
    chainFrom ((0 - 0) / 1) ((0 - 0) / 1 + 3 / 1)
      (([⟨"BB_0", 0, 0⟩, ⟨"BB_1", 0, 2⟩, ⟨"BB_2", 2, 3⟩] :
        List BasicBlockDescriptor).map descrPair) :=
  C10_basic_blocks_partition
    [⟨false, false, 0⟩, ⟨true, true, 0⟩, ⟨false, false, 0⟩] 0 3 0 1
    [⟨"BB_0", 0, 0⟩, ⟨"BB_1", 0, 2⟩, ⟨"BB_2", 2, 3⟩] (by rfl)
